import Mathlib

/-!
Verification of `project_structure.py` (AR--VR repository).

The script defines a hardcoded mapping `project_structure` from a project
root name to a list of relative path strings and a function
`create_project_structure` that walks the mapping: for each
`(root, files)` pair it runs `os.makedirs(root, exist_ok=True)`, then for
each entry computes `file_full_path = os.path.join(root, file_path)` and
either creates the directory (entry ends with "/") or creates the parent
directory chain and an empty (truncated) file.  Finally it prints one
confirmation message.

The embedding below models strings as `List Char`, filesystem paths as
lists of path components, and the filesystem as an association list from
component paths to nodes (directory, or file with a size).  The POSIX
path helpers `os.path.join`, `os.path.dirname`, `str.endswith("/")` and
the operations `os.makedirs(..., exist_ok=True)` and `open(path, "w")`
are translated from their documented semantics on such paths, and
`create_project_structure` is translated line by line from the script.
-/

namespace Scaffold

/-- A Python string, modelled as its list of characters. -/
abbrev Str := List Char

/-- A filesystem path, as the list of its non-empty components. -/
abbrev FsPath := List (List Char)

/-- A filesystem node: a directory, or a regular file with a byte size. -/
inductive Node where
  | dir : Node
  | file : Nat → Node
deriving DecidableEq

/-- The filesystem: a finite association list from paths to nodes.
The working directory itself (path `[]`) is implicitly a directory and is
never stored in the list. -/
abbrev FS := List (FsPath × Node)

/-- Look a path up in the filesystem. -/
def lookupFS : FS → FsPath → Option Node
  | [], _ => none
  | (q, n) :: rest, p => if q = p then some n else lookupFS rest p

/-- Insert (or overwrite) the node stored at a path. -/
def insertFS : FS → FsPath → Node → FS
  | [], p, n => [(p, n)]
  | (q, m) :: rest, p, n =>
    if q = p then (q, n) :: rest else (q, m) :: insertFS rest p n

/-- The `OSError` subclasses the script can encounter. -/
inductive FsError where
  | fileExists : FsPath → FsError
  | notADirectory : FsPath → FsError
  | isADirectory : FsPath → FsError
  | fileNotFound : FsPath → FsError
deriving DecidableEq

/-- Split a character list at every `'/'` (like `str.split("/")`):
`"a/b" ↦ [a, b]`, `"" ↦ [""]`, `"a/" ↦ [a, ""]`. -/
def splitSlash : List Char → List (List Char)
  | [] => [[]]
  | c :: cs =>
    if c = '/' then [] :: splitSlash cs
    else
      match splitSlash cs with
      | [] => [[c]]
      | p :: ps => (c :: p) :: ps

/-- The component path a string denotes: its non-empty slash-separated
pieces.  `os.makedirs`, `open` and friends act on this normal form. -/
def componentsL (l : List Char) : FsPath :=
  (splitSlash l).filter (fun p => p ≠ [])

/-- The slice `p[:p.rfind("/") + 1]` — the head part of `os.path.dirname`. -/
def takeBeforeLastSlash (l : List Char) : List Char :=
  (l.reverse.dropWhile (fun c => c ≠ '/')).reverse

/-- The expression `head.rstrip("/")` — strip trailing slashes. -/
def rstripSlash (l : List Char) : List Char :=
  (l.reverse.dropWhile (fun c => c = '/')).reverse

/-- The function `os.path.dirname` (posixpath): everything before the last `'/'`, with
trailing slashes stripped unless the head consists only of slashes. -/
def dirnameL (l : List Char) : List Char :=
  let head := takeBeforeLastSlash l
  if head ≠ [] ∧ head.any (fun c => c ≠ '/') then rstripSlash head else head

/-- Python `s.endswith("/")`. -/
def endsSlash (l : List Char) : Bool :=
  decide (l.getLast? = some '/')

/-- Python `s.startswith("/")`. -/
def startSlash (l : List Char) : Bool :=
  decide (l.head? = some '/')

/-- Python `os.path.join(a, b)` (posixpath, two arguments): `b` if `b` is
absolute; `a ++ b` if `a` is empty or ends with a slash; otherwise
`a ++ "/" ++ b`. -/
def osJoinL (a b : List Char) : List Char :=
  if startSlash b then b
  else if a = [] then b
  else if endsSlash a then a ++ b
  else a ++ '/' :: b

/-- Worker for `os.makedirs(..., exist_ok=True)`: ensure each successive
component prefix `pre ++ [c]` exists as a directory.  A prefix that is a
regular file raises (`FileExistsError` at the final path, otherwise
`NotADirectoryError`), exactly as `exist_ok=True` only forgives paths
that already exist as directories. -/
def makedirsFrom : FS → FsPath → List (List Char) → Except FsError FS
  | fs, _, [] => .ok fs
  | fs, pre, c :: cs =>
    match lookupFS fs (pre ++ [c]) with
    | some Node.dir => makedirsFrom fs (pre ++ [c]) cs
    | some (Node.file _) =>
      .error (if cs = [] then FsError.fileExists (pre ++ [c])
              else FsError.notADirectory (pre ++ [c]))
    | none => makedirsFrom (insertFS fs (pre ++ [c]) Node.dir) (pre ++ [c]) cs

/-- Python `os.makedirs(l, exist_ok=True)`.  A path with no components (such as
`""`) raises `FileNotFoundError`, as in CPython. -/
def makedirsL (fs : FS) (l : List Char) : Except FsError FS :=
  if componentsL l = [] then .error (FsError.fileNotFound (componentsL l))
  else makedirsFrom fs [] (componentsL l)

/-- Python `open(p, "w")` followed by closing the handle: truncate an existing
regular file to size 0, or create an empty file when the parent exists as
a directory; opening a directory raises `IsADirectoryError`. -/
def openTrunc (fs : FS) (p : FsPath) : Except FsError FS :=
  match lookupFS fs p with
  | some Node.dir => .error (FsError.isADirectory p)
  | some (Node.file _) => .ok (insertFS fs p (Node.file 0))
  | none =>
    if p = [] then .error (FsError.fileNotFound p)
    else if p.dropLast = [] then .ok (insertFS fs p (Node.file 0))
    else
      match lookupFS fs p.dropLast with
      | some Node.dir => .ok (insertFS fs p (Node.file 0))
      | some (Node.file _) => .error (FsError.notADirectory p)
      | none => .error (FsError.fileNotFound p)

/-- The body of the inner `for file_path in files` loop:
`file_full_path = os.path.join(root, file_path)`; directories are created
with `makedirs`, files with `makedirs(dirname)` followed by
`open(file_full_path, "w")`. -/
def processEntry (fs : FS) (root entry : Str) : Except FsError FS :=
  let full := osJoinL root entry
  if endsSlash full then makedirsL fs full
  else
    match makedirsL fs (dirnameL full) with
    | .error e => .error e
    | .ok fs1 => openTrunc fs1 (componentsL full)

/-- The inner loop over `files`. -/
def processEntries : FS → Str → List Str → Except FsError FS
  | fs, _, [] => .ok fs
  | fs, root, e :: es =>
    match processEntry fs root e with
    | .error err => .error err
    | .ok fs1 => processEntries fs1 root es

/-- The outer loop over `structure.items()`: `os.makedirs(root,
exist_ok=True)` then the inner loop. -/
def runPairs : FS → List (Str × List Str) → Except FsError FS
  | fs, [] => .ok fs
  | fs, (root, files) :: rest =>
    match makedirsL fs root with
    | .error err => .error err
    | .ok fs1 =>
      match processEntries fs1 root files with
      | .error err => .error err
      | .ok fs2 => runPairs fs2 rest

/-- The confirmation line printed on completion. -/
def successMsg : Str := "Project structure created successfully!".toList

/-- The call `create_project_structure(structure)` run against a filesystem state:
both loops, then `print("Project structure created successfully!")`.
The second component collects the lines printed; an uncaught `OSError`
propagates before the print statement is reached. -/
def create_project_structure (struct : List (Str × List Str)) (fs : FS) :
    Except FsError FS × List Str :=
  match runPairs fs struct with
  | .ok fs1 => (.ok fs1, [successMsg])
  | .error err => (.error err, [])

/-- The hardcoded list of entries of `"my-solar-system-project"`. -/
def solarFiles : List Str :=
  ["index.html".toList,
   "package.json".toList,
   "README.md".toList,
   "css/styles.css".toList,
   "assets/models/solarSystem.glb".toList,
   "assets/models/planetSurface1.glb".toList,
   "assets/models/planetSurface2.glb".toList,
   "assets/textures/".toList,
   "js/app.js".toList,
   "js/renderer.js".toList,
   "js/sceneManager.js".toList,
   "js/models/solarSystem.js".toList,
   "js/models/planet.js".toList,
   "js/cameras/mainCamera.js".toList,
   "js/cameras/planetCamera.js".toList,
   "js/controls/cursorControls.js".toList,
   "js/utils/loader.js".toList,
   "js/xr/arController.js".toList,
   "js/xr/vrController.js".toList]

/-- The hardcoded `project_structure` mapping, in insertion order. -/
def project_structure : List (Str × List Str) :=
  [("my-solar-system-project".toList, solarFiles)]

/-- Every non-empty prefix of `p` is a directory in `fs` (stated over
`p.inits` so that it is decidable on concrete inputs). -/
def allDirs (fs : FS) (p : FsPath) : Prop :=
  ∀ q ∈ p.inits, q ≠ [] → lookupFS fs q = some Node.dir

instance (fs : FS) (p : FsPath) : Decidable (allDirs fs p) := by
  unfold allDirs; infer_instance

theorem allDirs_iff (fs : FS) (p : FsPath) :
    allDirs fs p ↔ ∀ q, q ≠ [] → q <+: p → lookupFS fs q = some Node.dir := by
  constructor
  · intro h q hq hpre
    exact h q ((List.mem_inits q p).mpr hpre) hq
  · intro h q hmem hq
    exact h q hq ((List.mem_inits q p).mp hmem)

/-! ### Association-list lemmas -/

theorem lookup_insert_self (fs : FS) (p : FsPath) (n : Node) :
    lookupFS (insertFS fs p n) p = some n := by
  induction fs with
  | nil => simp [insertFS, lookupFS]
  | cons hd tl ih =>
    obtain ⟨r, m⟩ := hd
    simp only [insertFS]
    by_cases hrp : r = p
    · rw [if_pos hrp]; simp only [lookupFS]; rw [if_pos hrp]
    · rw [if_neg hrp]; simp only [lookupFS]; rw [if_neg hrp]; exact ih

theorem lookup_insert_ne (fs : FS) (p q : FsPath) (n : Node) (h : q ≠ p) :
    lookupFS (insertFS fs p n) q = lookupFS fs q := by
  induction fs with
  | nil =>
    simp only [insertFS, lookupFS]
    rw [if_neg (fun hpq => h hpq.symm)]
  | cons hd tl ih =>
    obtain ⟨r, m⟩ := hd
    simp only [insertFS]
    by_cases hrp : r = p
    · rw [if_pos hrp]
      simp only [lookupFS]
      rw [if_neg (fun hrq : r = q => h (hrq.symm.trans hrp)),
          if_neg (fun hrq : r = q => h (hrq.symm.trans hrp))]
    · rw [if_neg hrp]
      simp only [lookupFS]
      by_cases hrq : r = q
      · rw [if_pos hrq, if_pos hrq]
      · rw [if_neg hrq, if_neg hrq, ih]

theorem lookup_insert (fs : FS) (p q : FsPath) (n : Node) :
    lookupFS (insertFS fs p n) q = if q = p then some n else lookupFS fs q := by
  by_cases h : q = p
  · subst h; rw [if_pos rfl, lookup_insert_self]
  · rw [if_neg h, lookup_insert_ne fs p q n h]

theorem insert_eq_of_lookup (fs : FS) (p : FsPath) (n : Node)
    (h : lookupFS fs p = some n) : insertFS fs p n = fs := by
  induction fs with
  | nil => simp [lookupFS] at h
  | cons hd tl ih =>
    obtain ⟨r, m⟩ := hd
    simp only [lookupFS] at h
    simp only [insertFS]
    by_cases hrp : r = p
    · subst hrp
      rw [if_pos rfl] at h ⊢
      cases h; rfl
    · rw [if_neg hrp] at h ⊢
      rw [ih h]

/-! ### `makedirsFrom` lemmas -/

/-- A `makedirs` call never alters an existing node. -/
theorem makedirsFrom_pres {fs fs' : FS} {pre : FsPath} {cs : List (List Char)}
    (h : makedirsFrom fs pre cs = .ok fs') {p : FsPath} {n : Node}
    (hl : lookupFS fs p = some n) : lookupFS fs' p = some n := by
  induction cs generalizing fs pre with
  | nil => simp only [makedirsFrom] at h; cases h; exact hl
  | cons c cs ih =>
    simp only [makedirsFrom] at h
    cases hx : lookupFS fs (pre ++ [c]) with
    | none =>
      rw [hx] at h
      refine ih h ?_
      rw [lookup_insert]
      have hne : p ≠ pre ++ [c] := by
        intro he; rw [he, hx] at hl; exact Option.noConfusion hl
      rw [if_neg hne]; exact hl
    | some node =>
      cases node with
      | dir => rw [hx] at h; exact ih h hl
      | file k => rw [hx] at h; exact Except.noConfusion h

/-- A `makedirs` call leaves every path that is not a new component prefix
unchanged. -/
theorem makedirsFrom_frame {fs fs' : FS} {pre : FsPath} {cs : List (List Char)}
    (h : makedirsFrom fs pre cs = .ok fs') {p : FsPath}
    (hout : ∀ r, r ≠ [] → r <+: cs → p ≠ pre ++ r) :
    lookupFS fs' p = lookupFS fs p := by
  induction cs generalizing fs pre with
  | nil => simp only [makedirsFrom] at h; cases h; rfl
  | cons c cs ih =>
    simp only [makedirsFrom] at h
    have hnext : ∀ r, r ≠ [] → r <+: cs → p ≠ (pre ++ [c]) ++ r := by
      intro r hr hpre he
      exact hout (c :: r) (List.cons_ne_nil _ _)
        (List.cons_prefix_cons.mpr ⟨rfl, hpre⟩) (by simpa using he)
    have hpc : p ≠ pre ++ [c] :=
      hout [c] (List.cons_ne_nil _ _) (List.cons_prefix_cons.mpr ⟨rfl, List.nil_prefix⟩)
    cases hx : lookupFS fs (pre ++ [c]) with
    | none =>
      rw [hx] at h
      rw [ih h hnext, lookup_insert, if_neg hpc]
    | some node =>
      cases node with
      | dir => rw [hx] at h; exact ih h hnext
      | file k => rw [hx] at h; exact Except.noConfusion h

/-- On success every processed component prefix is a directory. -/
theorem makedirsFrom_est {fs fs' : FS} {pre : FsPath} {cs : List (List Char)}
    (h : makedirsFrom fs pre cs = .ok fs') {r : List (List Char)}
    (hr : r ≠ []) (hpre : r <+: cs) :
    lookupFS fs' (pre ++ r) = some Node.dir := by
  induction cs generalizing fs pre r with
  | nil =>
    exact absurd (List.prefix_nil.mp hpre) hr
  | cons c cs ih =>
    simp only [makedirsFrom] at h
    cases r with
    | nil => exact absurd rfl hr
    | cons c' r' =>
      obtain ⟨he, hr'⟩ := List.cons_prefix_cons.mp hpre
      cases he
      cases hx : lookupFS fs (pre ++ [c]) with
      | none =>
        rw [hx] at h
        cases hr'e : r' with
        | nil =>
          have : lookupFS (insertFS fs (pre ++ [c]) Node.dir) (pre ++ [c])
              = some Node.dir := by rw [lookup_insert, if_pos rfl]
          have := makedirsFrom_pres h this
          simpa using this
        | cons d r'' =>
          subst hr'e
          have := ih h (List.cons_ne_nil _ _) hr'
          simpa using this
      | some node =>
        cases node with
        | dir =>
          rw [hx] at h
          cases hr'e : r' with
          | nil =>
            have := makedirsFrom_pres h hx
            simpa using this
          | cons d r'' =>
            subst hr'e
            have := ih h (List.cons_ne_nil _ _) hr'
            simpa using this
        | file k => rw [hx] at h; exact Except.noConfusion h

/-- A `makedirs` call is a no-op when every component prefix is already a
directory. -/
theorem makedirsFrom_noop {fs : FS} {pre : FsPath} {cs : List (List Char)}
    (h : ∀ r, r ≠ [] → r <+: cs → lookupFS fs (pre ++ r) = some Node.dir) :
    makedirsFrom fs pre cs = .ok fs := by
  induction cs generalizing pre with
  | nil => rfl
  | cons c cs ih =>
    have hc : lookupFS fs (pre ++ [c]) = some Node.dir :=
      h [c] (List.cons_ne_nil _ _) (List.cons_prefix_cons.mpr ⟨rfl, List.nil_prefix⟩)
    simp only [makedirsFrom, hc]
    refine ih ?_
    intro r hr hpre
    have := h (c :: r) (List.cons_ne_nil _ _) (List.cons_prefix_cons.mpr ⟨rfl, hpre⟩)
    simpa using this

/-! ### `makedirsL` lemmas -/

theorem makedirsL_ok_ne {fs fs' : FS} {l : List Char}
    (h : makedirsL fs l = .ok fs') : componentsL l ≠ [] := by
  intro he
  rw [makedirsL, if_pos he] at h
  exact Except.noConfusion h

theorem makedirsL_pres {fs fs' : FS} {l : List Char}
    (h : makedirsL fs l = .ok fs') {p : FsPath} {n : Node}
    (hl : lookupFS fs p = some n) : lookupFS fs' p = some n := by
  rw [makedirsL] at h
  split at h
  · exact Except.noConfusion h
  · exact makedirsFrom_pres h hl

theorem makedirsL_frame {fs fs' : FS} {l : List Char}
    (h : makedirsL fs l = .ok fs') {p : FsPath}
    (hout : ¬ (p ≠ [] ∧ p <+: componentsL l)) :
    lookupFS fs' p = lookupFS fs p := by
  rw [makedirsL] at h
  split at h
  · exact Except.noConfusion h
  · refine makedirsFrom_frame h ?_
    intro r hr hpre he
    simp only [List.nil_append] at he
    subst he
    exact hout ⟨hr, hpre⟩

theorem makedirsL_est {fs fs' : FS} {l : List Char}
    (h : makedirsL fs l = .ok fs') {r : FsPath}
    (hr : r ≠ []) (hpre : r <+: componentsL l) :
    lookupFS fs' r = some Node.dir := by
  rw [makedirsL] at h
  split at h
  · exact Except.noConfusion h
  · have := makedirsFrom_est h hr hpre
    simpa using this

theorem makedirsL_allDirs {fs fs' : FS} {l : List Char}
    (h : makedirsL fs l = .ok fs') : allDirs fs' (componentsL l) := by
  rw [allDirs_iff]
  intro q hq hpre
  exact makedirsL_est h hq hpre

theorem makedirsL_noop {fs : FS} {l : List Char}
    (hne : componentsL l ≠ []) (hd : allDirs fs (componentsL l)) :
    makedirsL fs l = .ok fs := by
  rw [makedirsL, if_neg hne]
  refine makedirsFrom_noop ?_
  intro r hr hpre
  simp only [List.nil_append]
  exact (allDirs_iff fs (componentsL l)).mp hd r hr hpre

/-- Combined success characterization of `makedirsL`. -/
theorem makedirsL_char {fs fs' : FS} {l : List Char}
    (h : makedirsL fs l = .ok fs') (p : FsPath) :
    lookupFS fs' p =
      if p ≠ [] ∧ p <+: componentsL l then some Node.dir else lookupFS fs p := by
  by_cases hc : p ≠ [] ∧ p <+: componentsL l
  · rw [if_pos hc]; exact makedirsL_est h hc.1 hc.2
  · rw [if_neg hc]; exact makedirsL_frame h hc

/-- A `makedirs` call fails when the target path itself is a regular file. -/
theorem makedirsL_file_error {fs fs' : FS} {l : List Char} {n : Nat}
    (hl : lookupFS fs (componentsL l) = some (Node.file n)) :
    makedirsL fs l ≠ .ok fs' := by
  intro h
  have hne := makedirsL_ok_ne h
  have hdir := makedirsL_est h hne List.prefix_rfl
  have := makedirsL_pres h hl
  rw [hdir] at this
  exact Node.noConfusion (Option.some.inj this)

/-! ### `openTrunc` lemmas -/

theorem openTrunc_ok_lookup {fs fs' : FS} {p : FsPath}
    (h : openTrunc fs p = .ok fs') (q : FsPath) :
    lookupFS fs' q = if q = p then some (Node.file 0) else lookupFS fs q := by
  rw [openTrunc] at h
  cases hx : lookupFS fs p with
  | none =>
    rw [hx] at h
    by_cases hp : p = []
    · rw [if_pos hp] at h; exact Except.noConfusion h
    · rw [if_neg hp] at h
      by_cases hdl : p.dropLast = []
      · rw [if_pos hdl] at h
        cases h; exact lookup_insert fs p q (Node.file 0)
      · rw [if_neg hdl] at h
        cases hy : lookupFS fs p.dropLast with
        | none => rw [hy] at h; exact Except.noConfusion h
        | some node =>
          cases node with
          | dir => rw [hy] at h; cases h; exact lookup_insert fs p q (Node.file 0)
          | file k => rw [hy] at h; exact Except.noConfusion h
  | some node =>
    cases node with
    | dir => rw [hx] at h; exact Except.noConfusion h
    | file k => rw [hx] at h; cases h; exact lookup_insert fs p q (Node.file 0)

theorem openTrunc_not_dir {fs fs' : FS} {p : FsPath}
    (h : openTrunc fs p = .ok fs') : lookupFS fs p ≠ some Node.dir := by
  intro hx
  rw [openTrunc, hx] at h
  exact Except.noConfusion h

/-! ### Preservation -/

/-- Facts that later successful operations of the script preserve:
directories stay directories, empty files stay empty files, and files
stay files (of some size). -/
structure Pres (a b : FS) : Prop where
  dir : ∀ p, lookupFS a p = some Node.dir → lookupFS b p = some Node.dir
  file0 : ∀ p, lookupFS a p = some (Node.file 0) → lookupFS b p = some (Node.file 0)
  file : ∀ p n, lookupFS a p = some (Node.file n) → ∃ m, lookupFS b p = some (Node.file m)

theorem Pres.rfl (a : FS) : Pres a a :=
  ⟨fun _ h => h, fun _ h => h, fun _ n h => ⟨n, h⟩⟩

theorem Pres.trans {a b c : FS} (h1 : Pres a b) (h2 : Pres b c) : Pres a c := by
  refine ⟨fun p h => h2.dir p (h1.dir p h), fun p h => h2.file0 p (h1.file0 p h), ?_⟩
  intro p n h
  obtain ⟨m, hm⟩ := h1.file p n h
  exact h2.file p m hm

theorem Pres.allDirs {a b : FS} (h : Pres a b) {p : FsPath}
    (hd : allDirs a p) : allDirs b p := by
  rw [allDirs_iff] at hd ⊢
  intro q hq hpre
  exact h.dir q (hd q hq hpre)

theorem makedirsL_Pres {fs fs' : FS} {l : List Char}
    (h : makedirsL fs l = .ok fs') : Pres fs fs' :=
  ⟨fun _ hl => makedirsL_pres h hl, fun _ hl => makedirsL_pres h hl,
   fun _ n hl => ⟨n, makedirsL_pres h hl⟩⟩

theorem openTrunc_Pres {fs fs' : FS} {p : FsPath}
    (h : openTrunc fs p = .ok fs') : Pres fs fs' := by
  refine ⟨?_, ?_, ?_⟩
  · intro q hq
    rw [openTrunc_ok_lookup h q]
    by_cases hqp : q = p
    · subst hqp; exact absurd hq (openTrunc_not_dir h)
    · rw [if_neg hqp]; exact hq
  · intro q hq
    rw [openTrunc_ok_lookup h q]
    by_cases hqp : q = p
    · rw [if_pos hqp]
    · rw [if_neg hqp]; exact hq
  · intro q n hq
    rw [openTrunc_ok_lookup h q]
    by_cases hqp : q = p
    · exact ⟨0, by rw [if_pos hqp]⟩
    · exact ⟨n, by rw [if_neg hqp]; exact hq⟩

theorem processEntry_Pres {fs fs' : FS} {root e : Str}
    (h : processEntry fs root e = .ok fs') : Pres fs fs' := by
  rw [processEntry] at h
  split at h
  · exact makedirsL_Pres h
  · cases hm : makedirsL fs (dirnameL (osJoinL root e)) with
    | error err => rw [hm] at h; exact Except.noConfusion h
    | ok fs1 =>
      rw [hm] at h
      exact (makedirsL_Pres hm).trans (openTrunc_Pres h)

theorem processEntries_Pres {fs fs' : FS} {root : Str} {es : List Str}
    (h : processEntries fs root es = .ok fs') : Pres fs fs' := by
  induction es generalizing fs with
  | nil => simp only [processEntries] at h; cases h; exact Pres.rfl fs'
  | cons e es ih =>
    simp only [processEntries] at h
    cases hp : processEntry fs root e with
    | error err => rw [hp] at h; exact Except.noConfusion h
    | ok fs1 =>
      rw [hp] at h
      exact (processEntry_Pres hp).trans (ih h)

theorem runPairs_Pres {fs fs' : FS} {st : List (Str × List Str)}
    (h : runPairs fs st = .ok fs') : Pres fs fs' := by
  induction st generalizing fs with
  | nil => simp only [runPairs] at h; cases h; exact Pres.rfl fs'
  | cons pr rest ih =>
    obtain ⟨root, files⟩ := pr
    simp only [runPairs] at h
    cases hm : makedirsL fs root with
    | error err => rw [hm] at h; exact Except.noConfusion h
    | ok fs1 =>
      rw [hm] at h
      dsimp only at h
      cases he : processEntries fs1 root files with
      | error err => rw [he] at h; exact Except.noConfusion h
      | ok fs2 =>
        rw [he] at h
        exact ((makedirsL_Pres hm).trans (processEntries_Pres he)).trans (ih h)

/-! ### Establishment: what a successful run guarantees for each entry -/

/-- After an entry has been processed successfully, these facts hold of
every later filesystem state of the same successful run: a
directory-like entry's component path exists as a chain of directories,
and a file entry's parent chain exists with an empty file at the entry's
component path. -/
def entryEst (g : FS) (root e : Str) : Prop :=
  (endsSlash (osJoinL root e) = true →
    componentsL (osJoinL root e) ≠ [] ∧ allDirs g (componentsL (osJoinL root e)))
  ∧ (endsSlash (osJoinL root e) = false →
    componentsL (dirnameL (osJoinL root e)) ≠ [] ∧
    allDirs g (componentsL (dirnameL (osJoinL root e))) ∧
    lookupFS g (componentsL (osJoinL root e)) = some (Node.file 0))

theorem entryEst_mono {a b : FS} {root e : Str}
    (h : entryEst a root e) (hp : Pres a b) : entryEst b root e := by
  obtain ⟨hd, hf⟩ := h
  constructor
  · intro ht
    obtain ⟨h1, h2⟩ := hd ht
    exact ⟨h1, hp.allDirs h2⟩
  · intro ht
    obtain ⟨h1, h2, h3⟩ := hf ht
    exact ⟨h1, hp.allDirs h2, hp.file0 _ h3⟩

theorem processEntry_est {fs f1 : FS} {root e : Str}
    (h : processEntry fs root e = .ok f1) : entryEst f1 root e := by
  rw [processEntry] at h
  constructor
  · intro ht
    rw [if_pos ht] at h
    exact ⟨makedirsL_ok_ne h, makedirsL_allDirs h⟩
  · intro ht
    rw [if_neg (by rw [ht]; exact Bool.false_ne_true)] at h
    cases hm : makedirsL fs (dirnameL (osJoinL root e)) with
    | error err => rw [hm] at h; exact Except.noConfusion h
    | ok fsm =>
      rw [hm] at h
      dsimp only at h
      refine ⟨makedirsL_ok_ne hm, (openTrunc_Pres h).allDirs (makedirsL_allDirs hm), ?_⟩
      rw [openTrunc_ok_lookup h, if_pos rfl]

theorem processEntries_est {fs fs' : FS} {root : Str} {es : List Str}
    (h : processEntries fs root es = .ok fs') :
    ∀ e ∈ es, entryEst fs' root e := by
  induction es generalizing fs with
  | nil => intro e he; exact absurd he (List.not_mem_nil e)
  | cons e0 es ih =>
    simp only [processEntries] at h
    cases hp : processEntry fs root e0 with
    | error err => rw [hp] at h; exact Except.noConfusion h
    | ok fs1 =>
      rw [hp] at h
      dsimp only at h
      intro e he
      rcases List.mem_cons.mp he with rfl | hmem
      · exact entryEst_mono (processEntry_est hp) (processEntries_Pres h)
      · exact ih h e hmem

/-- What a successful run guarantees for a whole `(root, files)` pair. -/
def pairEst (g : FS) (root : Str) (files : List Str) : Prop :=
  componentsL root ≠ [] ∧ allDirs g (componentsL root) ∧
    ∀ e ∈ files, entryEst g root e

theorem pairEst_mono {a b : FS} {root : Str} {files : List Str}
    (h : pairEst a root files) (hp : Pres a b) : pairEst b root files :=
  ⟨h.1, hp.allDirs h.2.1, fun e he => entryEst_mono (h.2.2 e he) hp⟩

theorem runPairs_est {fs fs' : FS} {st : List (Str × List Str)}
    (h : runPairs fs st = .ok fs') :
    ∀ pr ∈ st, pairEst fs' pr.1 pr.2 := by
  induction st generalizing fs with
  | nil => intro pr hpr; exact absurd hpr (List.not_mem_nil pr)
  | cons pr0 rest ih =>
    obtain ⟨root, files⟩ := pr0
    simp only [runPairs] at h
    cases hm : makedirsL fs root with
    | error err => rw [hm] at h; exact Except.noConfusion h
    | ok fs1 =>
      rw [hm] at h
      dsimp only at h
      cases he : processEntries fs1 root files with
      | error err => rw [he] at h; exact Except.noConfusion h
      | ok fs2 =>
        rw [he] at h
        dsimp only at h
        intro pr hpr
        rcases List.mem_cons.mp hpr with rfl | hmem
        · exact ⟨makedirsL_ok_ne hm,
            ((processEntries_Pres he).trans (runPairs_Pres h)).allDirs (makedirsL_allDirs hm),
            fun e hees => entryEst_mono (processEntries_est he e hees) (runPairs_Pres h)⟩
        · exact ih h pr hmem

/-! ### Rerunning against the tree a successful run produced -/

theorem processEntry_rerun {g : FS} {root e : Str}
    (h : entryEst g root e) : processEntry g root e = .ok g := by
  obtain ⟨hd, hf⟩ := h
  rw [processEntry]
  cases ht : endsSlash (osJoinL root e) with
  | true =>
    rw [if_pos rfl]
    obtain ⟨h1, h2⟩ := hd ht
    exact makedirsL_noop h1 h2
  | false =>
    rw [if_neg Bool.false_ne_true]
    obtain ⟨h1, h2, h3⟩ := hf ht
    rw [makedirsL_noop h1 h2]
    dsimp only
    rw [openTrunc, h3, insert_eq_of_lookup g _ _ h3]

theorem processEntries_rerun {g : FS} {root : Str} {es : List Str}
    (h : ∀ e ∈ es, entryEst g root e) : processEntries g root es = .ok g := by
  induction es with
  | nil => rfl
  | cons e0 es ih =>
    simp only [processEntries]
    rw [processEntry_rerun (h e0 (List.mem_cons_self e0 es))]
    exact ih (fun e he => h e (List.mem_cons_of_mem e0 he))

theorem runPairs_rerun {g : FS} {st : List (Str × List Str)}
    (h : ∀ pr ∈ st, pairEst g pr.1 pr.2) : runPairs g st = .ok g := by
  induction st with
  | nil => rfl
  | cons pr0 rest ih =>
    obtain ⟨root, files⟩ := pr0
    simp only [runPairs]
    obtain ⟨h1, h2, h3⟩ := h (root, files) (List.mem_cons_self _ _)
    rw [makedirsL_noop h1 h2]
    dsimp only
    rw [processEntries_rerun h3]
    exact ih (fun pr hpr => h pr (List.mem_cons_of_mem _ hpr))

/-! ### Interface lemmas for `create_project_structure` -/

/-- Returns `true` exactly on `ok` results. -/
def isOkE : Except FsError FS → Bool
  | .ok _ => true
  | .error _ => false

/-- The `ok` payload of a result (defaulting to the empty filesystem). -/
def okValue : Except FsError FS → FS
  | .ok f => f
  | .error _ => []

theorem create_ok_iff {st : List (Str × List Str)} {fs fs' : FS} {out : List Str} :
    create_project_structure st fs = (.ok fs', out) ↔
      runPairs fs st = .ok fs' ∧ out = [successMsg] := by
  rw [create_project_structure]
  cases h : runPairs fs st with
  | ok f =>
    constructor
    · intro he
      obtain ⟨h1, h2⟩ := Prod.mk.injEq .. ▸ he
      exact ⟨by rw [← Except.ok.inj h1], h2.symm⟩
    · rintro ⟨h1, rfl⟩
      rw [Except.ok.inj h1]
  | error err =>
    constructor
    · intro he
      obtain ⟨h1, h2⟩ := Prod.mk.injEq .. ▸ he
      exact absurd h1 (fun hx => Except.noConfusion hx)
    · rintro ⟨h1, rfl⟩
      exact Except.noConfusion h1

/-! ### Claim theorems -/

/-- C1: Completeness — for every `(root, entries)` pair of the hardcoded
`project_structure` mapping and every entry, after a run of
`create_project_structure` that raises no filesystem error, the path
`join(root, entry)` exists, as a directory exactly when the entry string
makes the joined path end with `"/"`, and otherwise as a zero-byte
regular file. -/
theorem c1_completeness (fs fs' : FS) (out : List Str)
    (hrun : create_project_structure project_structure fs = (.ok fs', out)) :
    ∀ root files, (root, files) ∈ project_structure → ∀ e ∈ files,
      lookupFS fs' (componentsL (osJoinL root e)) =
        some (if endsSlash (osJoinL root e) then Node.dir else Node.file 0) := by
  obtain ⟨hr, -⟩ := create_ok_iff.mp hrun
  intro root files hmem e he
  have hest := (runPairs_est hr (root, files) hmem).2.2 e he
  cases ht : endsSlash (osJoinL root e) with
  | true =>
    obtain ⟨h1, h2⟩ := hest.1 ht
    rw [if_pos rfl]
    exact (allDirs_iff _ _).mp h2 _ h1 List.prefix_rfl
  | false =>
    rw [if_neg Bool.false_ne_true]
    exact (hest.2 ht).2.2

theorem c1_witness :
    ∃ fs' out, create_project_structure project_structure [] = (.ok fs', out) ∧
      lookupFS fs'
        (componentsL (osJoinL "my-solar-system-project".toList "index.html".toList)) =
        some (Node.file 0) := by
  have hrun : create_project_structure project_structure [] =
      (.ok (okValue (create_project_structure project_structure []).1),
       (create_project_structure project_structure []).2) := by rfl
  refine ⟨_, _, hrun, ?_⟩
  rw [c1_completeness _ _ _ hrun "my-solar-system-project".toList solarFiles
    (by decide) "index.html".toList (by decide)]
  rfl

/-- C2: Destructive truncation — a file entry (an entry not ending with
`"/"`) whose target path already exists as a non-empty regular file when
the entry is processed ends up existing with empty (size 0) contents
after `create_project_structure` processes that entry successfully. -/
theorem c2_truncation (fs fs' : FS) (root e : Str) (n : Nat)
    (hent : endsSlash e = false) (hn : 0 < n)
    (hpre : lookupFS fs (componentsL (osJoinL root e)) = some (Node.file n))
    (hrun : processEntry fs root e = .ok fs') :
    lookupFS fs' (componentsL (osJoinL root e)) = some (Node.file 0) := by
  have hest := processEntry_est hrun
  cases ht : endsSlash (osJoinL root e) with
  | false => exact (hest.2 ht).2.2
  | true =>
    exfalso
    obtain ⟨h1, h2⟩ := hest.1 ht
    have hdir := (allDirs_iff _ _).mp h2 _ h1 List.prefix_rfl
    obtain ⟨m, hm⟩ := (processEntry_Pres hrun).file _ n hpre
    rw [hdir] at hm
    exact Node.noConfusion (Option.some.inj hm)

theorem c2_witness :
    ∃ fs', processEntry [([['d']], Node.dir), ([['d'], "a.txt".toList], Node.file 5)]
        "d".toList "a.txt".toList = .ok fs' ∧
      lookupFS fs' (componentsL (osJoinL "d".toList "a.txt".toList)) =
        some (Node.file 0) := by
  have hrun : processEntry [([['d']], Node.dir), ([['d'], "a.txt".toList], Node.file 5)]
      "d".toList "a.txt".toList =
      .ok [([['d']], Node.dir), ([['d'], "a.txt".toList], Node.file 0)] := by rfl
  exact ⟨_, hrun, c2_truncation _ _ _ _ 5 (by decide) (by decide) (by rfl) hrun⟩

/-- C3: Failure propagation — when creating the root directory of a
`(root, entries)` pair fails, `create_project_structure` aborts before
processing any entry of that pair (the result does not depend on the
entries or on later pairs), emits no confirmation message, and surfaces
the underlying error unchanged. -/
theorem c3_abort (fs : FS) (root : Str) (err : FsError)
    (hm : makedirsL fs root = .error err) (files : List Str)
    (rest : List (Str × List Str)) :
    create_project_structure ((root, files) :: rest) fs = (.error err, []) := by
  rw [create_project_structure]
  simp only [runPairs, hm]

theorem c3_witness :
    create_project_structure [("d".toList, ["a.txt".toList])] [([['d']], Node.file 7)] =
      (.error (FsError.fileExists [['d']]), []) :=
  c3_abort [([['d']], Node.file 7)] "d".toList (FsError.fileExists [['d']]) (by rfl)
    ["a.txt".toList] []

/-- C4: Idempotence on directories — if a run of
`create_project_structure` succeeds and produces the tree `fs1`, then
running it again on `fs1` succeeds, raises no error, prints the same
message, and leaves the tree identical. -/
theorem c4_idempotent (st : List (Str × List Str)) (fs fs1 : FS) (out : List Str)
    (hrun : create_project_structure st fs = (.ok fs1, out)) :
    create_project_structure st fs1 = (.ok fs1, out) := by
  obtain ⟨hr, rfl⟩ := create_ok_iff.mp hrun
  exact create_ok_iff.mpr ⟨runPairs_rerun (runPairs_est hr), rfl⟩

theorem c4_witness :
    create_project_structure [("d".toList, ["a.txt".toList, "s/".toList])]
        [([['d']], Node.dir), ([['d'], "a.txt".toList], Node.file 0),
         ([['d'], ['s']], Node.dir)] =
      (.ok [([['d']], Node.dir), ([['d'], "a.txt".toList], Node.file 0),
            ([['d'], ['s']], Node.dir)], [successMsg]) :=
  c4_idempotent [("d".toList, ["a.txt".toList, "s/".toList])] [] _ _ (by rfl)

/-- C5: Already-exists is success — every directory-creation step the
script performs is a `makedirsL` call (the root, a directory-like entry,
or a file entry's parent chain), and such a call on a target whose
component path already exists as a chain of directories succeeds without
error and without changing the filesystem. -/
theorem c5_exist_ok (fs : FS) (l : Str) (hne : componentsL l ≠ [])
    (hd : allDirs fs (componentsL l)) : makedirsL fs l = .ok fs :=
  makedirsL_noop hne hd

theorem c5_witness :
    makedirsL [([['d']], Node.dir), ([['d'], ['s']], Node.dir)] "d/s".toList =
      .ok [([['d']], Node.dir), ([['d'], ['s']], Node.dir)] :=
  c5_exist_ok _ "d/s".toList (by decide) (by decide)

/-- C7: Empty spec is a no-op — on an empty mapping
`create_project_structure` performs no filesystem mutation at all: the
filesystem state is returned unchanged (only the confirmation line is
printed). -/
theorem c7_empty_noop (fs : FS) :
    create_project_structure [] fs = (.ok fs, [successMsg]) := rfl

/-- C8: Single confirmation on completion — `create_project_structure`
prints exactly the one confirmation line when every pair and entry was
processed without error, and prints nothing when an error occurs. -/
theorem c8_single_message (st : List (Str × List Str)) (fs : FS) :
    (create_project_structure st fs).2 =
      if isOkE (runPairs fs st) then [successMsg] else [] := by
  rw [create_project_structure]
  cases runPairs fs st <;> rfl

/-! ### Path-string algebra: `splitSlash`, `dirnameL`, `componentsL` -/

theorem splitSlash_ne_nil (l : List Char) : splitSlash l ≠ [] := by
  cases l with
  | nil => simp [splitSlash]
  | cons c cs =>
    rw [splitSlash]
    by_cases h : c = '/'
    · rw [if_pos h]; exact List.cons_ne_nil _ _
    · rw [if_neg h]
      cases splitSlash cs with
      | nil => exact List.cons_ne_nil _ _
      | cons p ps => exact List.cons_ne_nil _ _

theorem splitSlash_no_slash {l : List Char} (h : '/' ∉ l) : splitSlash l = [l] := by
  induction l with
  | nil => rfl
  | cons c cs ih =>
    have hc : ¬ c = '/' := fun he => h (he ▸ List.mem_cons_self c cs)
    have hcs : '/' ∉ cs := fun hm => h (List.mem_cons_of_mem c hm)
    rw [splitSlash, if_neg hc, ih hcs]

theorem splitSlash_cons_slash (cs : List Char) :
    splitSlash ('/' :: cs) = [] :: splitSlash cs := by
  rw [splitSlash, if_pos rfl]

theorem splitSlash_append_slash {l₂ : List Char} (l₁ : List Char) (h : '/' ∉ l₂) :
    splitSlash (l₁ ++ '/' :: l₂) = splitSlash l₁ ++ [l₂] := by
  induction l₁ with
  | nil =>
    simp only [List.nil_append]
    rw [splitSlash_cons_slash, splitSlash_no_slash h]
    rfl
  | cons c cs ih =>
    by_cases hc : c = '/'
    · subst hc
      rw [List.cons_append, splitSlash_cons_slash, ih, splitSlash_cons_slash,
        List.cons_append]
    · rw [List.cons_append, splitSlash, if_neg hc, ih, splitSlash, if_neg hc]
      cases hs : splitSlash cs with
      | nil => exact absurd hs (splitSlash_ne_nil cs)
      | cons p ps => rfl

theorem componentsL_append_single_slash (l : List Char) :
    componentsL (l ++ ['/']) = componentsL l := by
  have h : splitSlash (l ++ '/' :: []) = splitSlash l ++ [[]] :=
    splitSlash_append_slash l (List.not_mem_nil '/')
  rw [componentsL, h, List.filter_append, componentsL]
  simp

theorem componentsL_append_slash_cons {l₂ : List Char} (l₁ : List Char) (h : '/' ∉ l₂) :
    componentsL (l₁ ++ '/' :: l₂) =
      componentsL l₁ ++ [l₂].filter (fun p => p ≠ []) := by
  rw [componentsL, splitSlash_append_slash l₁ h, List.filter_append, componentsL]

theorem exists_last_slash {l : List Char} (h : '/' ∈ l) :
    ∃ l₁ l₂, l = l₁ ++ '/' :: l₂ ∧ '/' ∉ l₂ := by
  induction l with
  | nil => exact absurd h (List.not_mem_nil '/')
  | cons c cs ih =>
    by_cases hcs : '/' ∈ cs
    · obtain ⟨l₁, l₂, he, h2⟩ := ih hcs
      exact ⟨c :: l₁, l₂, by rw [List.cons_append, ← he], h2⟩
    · have hc : c = '/' := by
        rcases List.mem_cons.mp h with he | hm
        · exact he.symm
        · exact absurd hm hcs
      exact ⟨[], cs, by rw [hc]; rfl, hcs⟩

theorem dropWhile_no_slash (a b : List Char) (h : '/' ∉ a) :
    List.dropWhile (fun c => c ≠ '/') (a ++ '/' :: b) = '/' :: b := by
  induction a with
  | nil => simp [List.dropWhile_cons]
  | cons c a' ih =>
    have hc : ¬ c = '/' := fun he => h (he ▸ List.mem_cons_self c a')
    have ha' : '/' ∉ a' := fun hm => h (List.mem_cons_of_mem c hm)
    rw [List.cons_append, List.dropWhile_cons, if_pos (by simpa using hc)]
    exact ih ha'

theorem takeBeforeLastSlash_spec {l₂ : List Char} (l₁ : List Char) (h : '/' ∉ l₂) :
    takeBeforeLastSlash (l₁ ++ '/' :: l₂) = l₁ ++ ['/'] := by
  rw [takeBeforeLastSlash, List.reverse_append, List.reverse_cons, List.append_assoc]
  have hrev : '/' ∉ l₂.reverse := fun hm => h (List.mem_reverse.mp hm)
  rw [List.singleton_append, dropWhile_no_slash _ _ hrev, List.reverse_cons,
    List.reverse_reverse]

theorem takeBeforeLastSlash_no_slash {l : List Char} (h : '/' ∉ l) :
    takeBeforeLastSlash l = [] := by
  rw [takeBeforeLastSlash]
  have hd : List.dropWhile (fun c => c ≠ '/') l.reverse = [] := by
    rw [List.dropWhile_eq_nil_iff]
    intro c hc
    have hcl : c ∈ l := List.mem_reverse.mp hc
    have hcne : c ≠ '/' := fun he => h (he ▸ hcl)
    simp [hcne]
  rw [hd, List.reverse_nil]

theorem rstripSlash_replicate (x : List Char) :
    ∃ k, x = rstripSlash x ++ List.replicate k '/' := by
  refine ⟨(x.reverse.takeWhile (fun c => c = '/')).length, ?_⟩
  have hsplit := List.takeWhile_append_dropWhile (fun c => decide (c = '/')) x.reverse
  have htk : x.reverse.takeWhile (fun c => c = '/') =
      List.replicate (x.reverse.takeWhile (fun c => c = '/')).length '/' := by
    refine List.eq_replicate_length.mpr ?_
    intro b hb
    simpa using List.mem_takeWhile_imp hb
  calc x = x.reverse.reverse := (List.reverse_reverse x).symm
    _ = (x.reverse.takeWhile (fun c => c = '/') ++
          x.reverse.dropWhile (fun c => c = '/')).reverse := by rw [hsplit]
    _ = rstripSlash x ++ (x.reverse.takeWhile (fun c => c = '/')).reverse := by
          rw [List.reverse_append]; rfl
    _ = _ := by
          conv_lhs => rw [htk]
          rw [List.reverse_replicate]

theorem componentsL_append_replicate (y : List Char) (k : Nat) :
    componentsL (y ++ List.replicate k '/') = componentsL y := by
  induction k generalizing y with
  | zero => simp
  | succ k ih =>
    rw [List.replicate_succ, List.append_cons, ih (y ++ ['/']),
      componentsL_append_single_slash]

theorem componentsL_rstripSlash (x : List Char) :
    componentsL (rstripSlash x) = componentsL x := by
  obtain ⟨k, hk⟩ := rstripSlash_replicate x
  conv_rhs => rw [hk]
  rw [componentsL_append_replicate]

theorem componentsL_dirnameL_eq_take (l : List Char) :
    componentsL (dirnameL l) = componentsL (takeBeforeLastSlash l) := by
  rw [dirnameL]
  split
  · exact componentsL_rstripSlash _
  · rfl

theorem componentsL_dirnameL_slash {l₂ : List Char} (l₁ : List Char) (h : '/' ∉ l₂) :
    componentsL (dirnameL (l₁ ++ '/' :: l₂)) = componentsL l₁ := by
  rw [componentsL_dirnameL_eq_take, takeBeforeLastSlash_spec l₁ h,
    componentsL_append_single_slash]

theorem componentsL_no_slash {l : List Char} (h : '/' ∉ l) :
    componentsL l = if l = [] then [] else [l] := by
  rw [componentsL, splitSlash_no_slash h]
  by_cases he : l = []
  · subst he; rfl
  · rw [if_neg he]; simp [he]

/-- The components of `dirname(l)` are a prefix of the components of
`l`. -/
theorem componentsL_dirnameL_le (l : List Char) :
    componentsL (dirnameL l) <+: componentsL l := by
  by_cases h : '/' ∈ l
  · obtain ⟨l₁, l₂, rfl, h2⟩ := exists_last_slash h
    rw [componentsL_dirnameL_slash l₁ h2, componentsL_append_slash_cons l₁ h2]
    exact List.prefix_append _ _
  · rw [componentsL_dirnameL_eq_take, takeBeforeLastSlash_no_slash h]
    exact List.nil_prefix

theorem endsSlash_append_slash (l₁ : List Char) :
    endsSlash (l₁ ++ ['/']) = true := by
  rw [endsSlash, decide_eq_true_iff]
  rw [List.getLast?_append_of_ne_nil _ (List.cons_ne_nil '/' [])]
  rfl

/-- For a path not ending in `"/"`, the components of its dirname are
exactly the components of the path without the final one. -/
theorem componentsL_dirnameL_dropLast {l : List Char} (hf : endsSlash l = false) :
    componentsL (dirnameL l) = (componentsL l).dropLast := by
  by_cases h : '/' ∈ l
  · obtain ⟨l₁, l₂, rfl, h2⟩ := exists_last_slash h
    have hl2 : l₂ ≠ [] := by
      intro he
      subst he
      rw [show l₁ ++ '/' :: [] = l₁ ++ ['/'] from rfl, endsSlash_append_slash] at hf
      exact Bool.noConfusion hf
    rw [componentsL_dirnameL_slash l₁ h2, componentsL_append_slash_cons l₁ h2]
    rw [show [l₂].filter (fun p => p ≠ []) = [l₂] by simp [hl2]]
    rw [List.dropLast_concat]
  · rw [componentsL_dirnameL_eq_take, takeBeforeLastSlash_no_slash h,
      componentsL_no_slash h]
    by_cases he : l = []
    · rw [if_pos he]; rfl
    · rw [if_neg he]; rfl

/-- A path whose dirname has components has components itself. -/
theorem componentsL_ne_of_dirname_ne {l : List Char}
    (h : componentsL (dirnameL l) ≠ []) : componentsL l ≠ [] := by
  intro he
  have := componentsL_dirnameL_le l
  rw [he, List.prefix_nil] at this
  exact h this

/-! ### Frame lemmas: paths outside the touched set are unchanged -/

theorem processEntry_frame {fs f1 : FS} {root e : Str}
    (h : processEntry fs root e = .ok f1) {p : FsPath}
    (hout : ¬ (p ≠ [] ∧ p <+: componentsL (osJoinL root e))) :
    lookupFS f1 p = lookupFS fs p := by
  rw [processEntry] at h
  split at h
  · exact makedirsL_frame h hout
  · cases hm : makedirsL fs (dirnameL (osJoinL root e)) with
    | error err => rw [hm] at h; exact Except.noConfusion h
    | ok fsm =>
      rw [hm] at h
      dsimp only at h
      have htne : componentsL (osJoinL root e) ≠ [] :=
        componentsL_ne_of_dirname_ne (makedirsL_ok_ne hm)
      have hpt : p ≠ componentsL (osJoinL root e) := by
        intro he
        exact hout ⟨he ▸ htne, he ▸ List.prefix_rfl⟩
      rw [openTrunc_ok_lookup h p, if_neg hpt]
      refine makedirsL_frame hm ?_
      intro ⟨hne, hpre⟩
      exact hout ⟨hne, hpre.trans (componentsL_dirnameL_le _)⟩

theorem processEntries_frame {fs fs' : FS} {root : Str} {es : List Str}
    (h : processEntries fs root es = .ok fs') {p : FsPath}
    (hout : ∀ e ∈ es, ¬ (p ≠ [] ∧ p <+: componentsL (osJoinL root e))) :
    lookupFS fs' p = lookupFS fs p := by
  induction es generalizing fs with
  | nil => simp only [processEntries] at h; cases h; rfl
  | cons e0 es ih =>
    simp only [processEntries] at h
    cases hp : processEntry fs root e0 with
    | error err => rw [hp] at h; exact Except.noConfusion h
    | ok fs1 =>
      rw [hp] at h
      dsimp only at h
      rw [ih h (fun e he => hout e (List.mem_cons_of_mem e0 he)),
        processEntry_frame hp (hout e0 (List.mem_cons_self e0 es))]

/-- The set of paths a run is allowed to touch: non-empty component
prefixes of a root or of a joined entry path of the spec. -/
def inFootprint (st : List (Str × List Str)) (p : FsPath) : Prop :=
  p ≠ [] ∧ ∃ pr ∈ st,
    p <+: componentsL pr.1 ∨ ∃ e ∈ pr.2, p <+: componentsL (osJoinL pr.1 e)

theorem runPairs_frame {fs fs' : FS} {st : List (Str × List Str)}
    (h : runPairs fs st = .ok fs') {p : FsPath}
    (hout : ¬ inFootprint st p) :
    lookupFS fs' p = lookupFS fs p := by
  induction st generalizing fs with
  | nil => simp only [runPairs] at h; cases h; rfl
  | cons pr0 rest ih =>
    obtain ⟨root, files⟩ := pr0
    simp only [runPairs] at h
    cases hm : makedirsL fs root with
    | error err => rw [hm] at h; exact Except.noConfusion h
    | ok fs1 =>
      rw [hm] at h
      dsimp only at h
      cases he : processEntries fs1 root files with
      | error err => rw [he] at h; exact Except.noConfusion h
      | ok fs2 =>
        rw [he] at h
        have hrest : ¬ inFootprint rest p := by
          intro ⟨hne, pr, hpr, hc⟩
          exact hout ⟨hne, pr, List.mem_cons_of_mem _ hpr, hc⟩
        have hfiles : ∀ e ∈ files, ¬ (p ≠ [] ∧ p <+: componentsL (osJoinL root e)) := by
          intro e hees ⟨hne, hpre⟩
          exact hout ⟨hne, (root, files), List.mem_cons_self _ _, Or.inr ⟨e, hees, hpre⟩⟩
        have hroot : ¬ (p ≠ [] ∧ p <+: componentsL root) := by
          intro ⟨hne, hpre⟩
          exact hout ⟨hne, (root, files), List.mem_cons_self _ _, Or.inl hpre⟩
        rw [ih h hrest, processEntries_frame he hfiles, makedirsL_frame hm hroot]

/-- C6: Parent creation — for every file entry of the spec whose joined
path is nested and none of whose ancestor directories exist beforehand,
after a successful run of `create_project_structure` every ancestor
directory of the entry's full path exists as a directory. -/
theorem c6_parents (st : List (Str × List Str)) (fs fs' : FS) (out : List Str)
    (hrun : create_project_structure st fs = (.ok fs', out))
    (root : Str) (files : List Str) (hmem : (root, files) ∈ st)
    (e : Str) (he : e ∈ files)
    (hfile : endsSlash (osJoinL root e) = false)
    (hnested : 2 ≤ (componentsL (osJoinL root e)).length)
    (hfresh : ∀ q, q ≠ [] → q <+: (componentsL (osJoinL root e)).dropLast →
      lookupFS fs q = none) :
    ∀ q, q ≠ [] → q <+: (componentsL (osJoinL root e)).dropLast →
      lookupFS fs' q = some Node.dir := by
  obtain ⟨hr, -⟩ := create_ok_iff.mp hrun
  have hest := (runPairs_est hr (root, files) hmem).2.2 e he
  obtain ⟨-, h2, -⟩ := hest.2 hfile
  intro q hq hpre
  rw [← componentsL_dirnameL_dropLast hfile] at hpre
  exact (allDirs_iff _ _).mp h2 q hq hpre

theorem c6_witness :
    ∃ fs' out,
      create_project_structure [("d".toList, ["a/b/c.txt".toList])] [] = (.ok fs', out) ∧
      lookupFS fs' [['d'], ['a']] = some Node.dir := by
  have hrun : create_project_structure [("d".toList, ["a/b/c.txt".toList])] [] =
      (.ok (okValue (create_project_structure [("d".toList, ["a/b/c.txt".toList])] []).1),
       (create_project_structure [("d".toList, ["a/b/c.txt".toList])] []).2) := by rfl
  refine ⟨_, _, hrun, ?_⟩
  exact c6_parents _ _ _ _ hrun "d".toList ["a/b/c.txt".toList] (by decide)
    "a/b/c.txt".toList (by decide) (by decide) (by decide) (fun q _ _ => rfl)
    [['d'], ['a']] (by decide) (by decide)

/-- C9: Frame property — a run of `create_project_structure` changes
only paths that are non-empty component prefixes of some root of the
spec or of some joined entry path `join(root, entry)` (the targets, the
roots, and their ancestor directories); every other path keeps exactly
the node it had before. -/
theorem c9_frame (st : List (Str × List Str)) (fs fs' : FS) (out : List Str)
    (hrun : create_project_structure st fs = (.ok fs', out)) :
    ∀ p, lookupFS fs' p ≠ lookupFS fs p →
      p ≠ [] ∧ ∃ pr ∈ st,
        p <+: componentsL pr.1 ∨ ∃ e ∈ pr.2, p <+: componentsL (osJoinL pr.1 e) := by
  obtain ⟨hr, -⟩ := create_ok_iff.mp hrun
  intro p hne
  by_contra hout
  exact hne (runPairs_frame hr hout)

theorem c9_witness :
    ([['d'], "a.txt".toList] : FsPath) ≠ [] ∧
      ∃ pr ∈ [("d".toList, ["a.txt".toList])],
        [['d'], "a.txt".toList] <+: componentsL pr.1 ∨
          ∃ e ∈ pr.2, [['d'], "a.txt".toList] <+: componentsL (osJoinL pr.1 e) := by
  have hrun : create_project_structure [("d".toList, ["a.txt".toList])] [] =
      (.ok [([['d']], Node.dir), ([['d'], "a.txt".toList], Node.file 0)], [successMsg]) := by
    rfl
  exact c9_frame [("d".toList, ["a.txt".toList])] [] _ _ hrun
    [['d'], "a.txt".toList] (by decide)

/-! ### Pointwise characterization of the inner loop -/

/-- The node `processEntry fs root e` leaves at `p` when it succeeds. -/
def peSpec (fs : FS) (root e : Str) (p : FsPath) : Option Node :=
  if endsSlash (osJoinL root e) then
    if p ≠ [] ∧ p <+: componentsL (osJoinL root e) then some Node.dir else lookupFS fs p
  else if p = componentsL (osJoinL root e) then some (Node.file 0)
  else if p ≠ [] ∧ p <+: componentsL (dirnameL (osJoinL root e)) then some Node.dir
  else lookupFS fs p

theorem processEntry_char {fs f1 : FS} {root e : Str}
    (h : processEntry fs root e = .ok f1) (p : FsPath) :
    lookupFS f1 p = peSpec fs root e p := by
  rw [processEntry] at h
  rw [peSpec]
  by_cases ht : endsSlash (osJoinL root e) = true
  · rw [if_pos ht] at h
    rw [if_pos ht]
    exact makedirsL_char h p
  · rw [if_neg ht] at h
    rw [if_neg ht]
    cases hm : makedirsL fs (dirnameL (osJoinL root e)) with
    | error err => rw [hm] at h; exact Except.noConfusion h
    | ok fsm =>
      rw [hm] at h
      dsimp only at h
      rw [openTrunc_ok_lookup h p]
      by_cases hpt : p = componentsL (osJoinL root e)
      · rw [if_pos hpt, if_pos hpt]
      · rw [if_neg hpt, if_neg hpt]
        exact makedirsL_char hm p

/-- Whether `p` is the component path of some file entry of `es`. -/
def isFileTarget (root : Str) (es : List Str) (p : FsPath) : Prop :=
  ∃ e ∈ es, endsSlash (osJoinL root e) = false ∧ p = componentsL (osJoinL root e)

/-- Whether `p` is one of the directories some entry of `es` creates. -/
def isDirMade (root : Str) (es : List Str) (p : FsPath) : Prop :=
  p ≠ [] ∧ ∃ e ∈ es,
    (endsSlash (osJoinL root e) = true ∧ p <+: componentsL (osJoinL root e)) ∨
    (endsSlash (osJoinL root e) = false ∧ p <+: componentsL (dirnameL (osJoinL root e)))

instance (root : Str) (es : List Str) (p : FsPath) :
    Decidable (isFileTarget root es p) := by
  unfold isFileTarget; infer_instance

instance (root : Str) (es : List Str) (p : FsPath) :
    Decidable (isDirMade root es p) := by
  unfold isDirMade; infer_instance

theorem isFileTarget_nil (root : Str) (p : FsPath) : ¬ isFileTarget root [] p := by
  rintro ⟨e, he, -⟩
  exact List.not_mem_nil e he

theorem isDirMade_nil (root : Str) (p : FsPath) : ¬ isDirMade root [] p := by
  rintro ⟨-, e, he, -⟩
  exact List.not_mem_nil e he

theorem isFileTarget_cons {root e0 : Str} {es : List Str} {p : FsPath} :
    isFileTarget root (e0 :: es) p ↔
      (endsSlash (osJoinL root e0) = false ∧ p = componentsL (osJoinL root e0)) ∨
        isFileTarget root es p := by
  unfold isFileTarget
  constructor
  · rintro ⟨e, he, hc⟩
    rcases List.mem_cons.mp he with rfl | hm
    · exact Or.inl hc
    · exact Or.inr ⟨e, hm, hc⟩
  · rintro (hc | ⟨e, hm, hc⟩)
    · exact ⟨e0, List.mem_cons_self _ _, hc⟩
    · exact ⟨e, List.mem_cons_of_mem _ hm, hc⟩

theorem isDirMade_cons {root e0 : Str} {es : List Str} {p : FsPath} :
    isDirMade root (e0 :: es) p ↔
      (p ≠ [] ∧
        ((endsSlash (osJoinL root e0) = true ∧ p <+: componentsL (osJoinL root e0)) ∨
         (endsSlash (osJoinL root e0) = false ∧
           p <+: componentsL (dirnameL (osJoinL root e0))))) ∨
        isDirMade root es p := by
  unfold isDirMade
  constructor
  · rintro ⟨hne, e, he, hc⟩
    rcases List.mem_cons.mp he with rfl | hm
    · exact Or.inl ⟨hne, hc⟩
    · exact Or.inr ⟨hne, e, hm, hc⟩
  · rintro (⟨hne, hc⟩ | ⟨hne, e, hm, hc⟩)
    · exact ⟨hne, e0, List.mem_cons_self _ _, hc⟩
    · exact ⟨hne, e, List.mem_cons_of_mem _ hm, hc⟩

theorem processEntries_char {fs fs' : FS} {root : Str} {es : List Str}
    (h : processEntries fs root es = .ok fs') (p : FsPath) :
    lookupFS fs' p =
      if isFileTarget root es p then some (Node.file 0)
      else if isDirMade root es p then some Node.dir
      else lookupFS fs p := by
  induction es generalizing fs with
  | nil =>
    simp only [processEntries] at h
    cases h
    rw [if_neg (isFileTarget_nil root p), if_neg (isDirMade_nil root p)]
  | cons e0 es ih =>
    simp only [processEntries] at h
    cases hp : processEntry fs root e0 with
    | error err => rw [hp] at h; exact Except.noConfusion h
    | ok f1 =>
      rw [hp] at h
      dsimp only at h
      have IH := ih h
      by_cases hFT : isFileTarget root es p
      · rw [if_pos hFT] at IH
        rw [IH, if_pos (isFileTarget_cons.mpr (Or.inr hFT))]
      · rw [if_neg hFT] at IH
        by_cases hDM : isDirMade root es p
        · rw [if_pos hDM] at IH
          by_cases hFTe : endsSlash (osJoinL root e0) = false ∧
              p = componentsL (osJoinL root e0)
          · exfalso
            have hf1 : lookupFS f1 p = some (Node.file 0) := by
              rw [processEntry_char hp p, peSpec,
                if_neg (by rw [hFTe.1]; exact Bool.false_ne_true), if_pos hFTe.2]
            have hpz := (processEntries_Pres h).file0 p hf1
            rw [IH] at hpz
            exact Node.noConfusion (Option.some.inj hpz)
          · rw [IH, if_neg (fun hx => (isFileTarget_cons.mp hx).elim hFTe hFT),
              if_pos (isDirMade_cons.mpr (Or.inr hDM))]
        · rw [if_neg hDM] at IH
          rw [IH, processEntry_char hp p, peSpec]
          by_cases ht : endsSlash (osJoinL root e0) = true
          · rw [if_pos ht]
            have hnotft : ¬ isFileTarget root (e0 :: es) p := by
              intro hx
              rcases isFileTarget_cons.mp hx with ⟨hc, -⟩ | hx'
              · rw [ht] at hc; exact Bool.noConfusion hc
              · exact hFT hx'
            by_cases hpre : p ≠ [] ∧ p <+: componentsL (osJoinL root e0)
            · rw [if_pos hpre, if_neg hnotft,
                if_pos (isDirMade_cons.mpr (Or.inl ⟨hpre.1, Or.inl ⟨ht, hpre.2⟩⟩))]
            · rw [if_neg hpre, if_neg hnotft]
              have hnotdm : ¬ isDirMade root (e0 :: es) p := by
                intro hx
                rcases isDirMade_cons.mp hx with ⟨hne, hc | hc⟩ | hx'
                · exact hpre ⟨hne, hc.2⟩
                · rw [ht] at hc; exact Bool.noConfusion hc.1
                · exact hDM hx'
              rw [if_neg hnotdm]
          · rw [if_neg ht]
            have htf : endsSlash (osJoinL root e0) = false := by
              cases hb : endsSlash (osJoinL root e0) with
              | true => exact absurd hb ht
              | false => rfl
            by_cases hpt : p = componentsL (osJoinL root e0)
            · rw [if_pos hpt,
                if_pos (isFileTarget_cons.mpr (Or.inl ⟨htf, hpt⟩))]
            · rw [if_neg hpt]
              have hnotft : ¬ isFileTarget root (e0 :: es) p := by
                intro hx
                rcases isFileTarget_cons.mp hx with ⟨-, hc⟩ | hx'
                · exact hpt hc
                · exact hFT hx'
              by_cases hdp : p ≠ [] ∧ p <+: componentsL (dirnameL (osJoinL root e0))
              · rw [if_pos hdp, if_neg hnotft,
                  if_pos (isDirMade_cons.mpr (Or.inl ⟨hdp.1, Or.inr ⟨htf, hdp.2⟩⟩))]
              · rw [if_neg hdp, if_neg hnotft]
                have hnotdm : ¬ isDirMade root (e0 :: es) p := by
                  intro hx
                  rcases isDirMade_cons.mp hx with ⟨hne, hc | hc⟩ | hx'
                  · rw [htf] at hc; exact Bool.noConfusion hc.1
                  · exact hdp ⟨hne, hc.2⟩
                  · exact hDM hx'
                rw [if_neg hnotdm]

/-- C10: Order-insensitivity — for a fixed root, two successful runs of
the entry loop of `create_project_structure` over permuted entry lists
produce the same filesystem tree (the same node at every path): each
file entry creates its own ancestor chain, so no entry depends on an
earlier directory-like entry. -/
theorem c10_order (root : Str) (es es' : List Str) (hperm : es.Perm es')
    (fs f1 f2 : FS) (h1 : processEntries fs root es = .ok f1)
    (h2 : processEntries fs root es' = .ok f2) :
    ∀ p, lookupFS f1 p = lookupFS f2 p := by
  intro p
  rw [processEntries_char h1 p, processEntries_char h2 p]
  have hFT : isFileTarget root es p ↔ isFileTarget root es' p := by
    unfold isFileTarget
    constructor
    · rintro ⟨e, he, hc⟩; exact ⟨e, hperm.mem_iff.mp he, hc⟩
    · rintro ⟨e, he, hc⟩; exact ⟨e, hperm.mem_iff.mpr he, hc⟩
  have hDM : isDirMade root es p ↔ isDirMade root es' p := by
    unfold isDirMade
    constructor
    · rintro ⟨hne, e, he, hc⟩; exact ⟨hne, e, hperm.mem_iff.mp he, hc⟩
    · rintro ⟨hne, e, he, hc⟩; exact ⟨hne, e, hperm.mem_iff.mpr he, hc⟩
  by_cases hft : isFileTarget root es p
  · rw [if_pos hft, if_pos (hFT.mp hft)]
  · rw [if_neg hft, if_neg (fun hx => hft (hFT.mpr hx))]
    by_cases hdm : isDirMade root es p
    · rw [if_pos hdm, if_pos (hDM.mp hdm)]
    · rw [if_neg hdm, if_neg (fun hx => hdm (hDM.mpr hx))]

theorem c10_witness :
    lookupFS [([['d']], Node.dir), ([['d'], "a.txt".toList], Node.file 0),
      ([['d'], ['s']], Node.dir)] [['d'], ['s']] =
    lookupFS [([['d']], Node.dir), ([['d'], ['s']], Node.dir),
      ([['d'], "a.txt".toList], Node.file 0)] [['d'], ['s']] :=
  c10_order "d".toList ["a.txt".toList, "s/".toList] ["s/".toList, "a.txt".toList]
    (by decide) [([['d']], Node.dir)] _ _ (by rfl) (by rfl) [['d'], ['s']]

end Scaffold
